import Mathlib

/-!
Verification model of the Realm Brew hex map editor
(source file hex_map_editor_tkinter.py).

Conventions of the embedding:
* Python floats are modeled as exact rationals for the map model and the
  overlay mutations, and as real numbers for the hex geometry (which uses
  sqrt 3) and the camera zoom.
* Python dicts are modeled as association lists; insertion replaces the
  value in place when the key is present and appends otherwise, matching
  insertion-order semantics of Python dicts.
* Exceptions are modeled with Except; a stateful operation that can raise
  after mutating returns the post-exception state in the error branch.
-/

/- ── String helpers (models of Python str operations) ───────────────── -/

/-- Does needle occur as a contiguous run inside hay?
Models the Python expression needle in hay for strings. -/
def subOccurs (needle : List Char) : List Char → Bool
  | [] => needle.isPrefixOf []
  | c :: t => needle.isPrefixOf (c :: t) || subOccurs needle t

/-- Python str.lower, restricted to ASCII letters. -/
def lowerChars (s : String) : List Char := s.toList.map Char.toLower

/-- Source _is_overlay_folder: the substring overlay occurs in name.lower(). -/
def isOverlayFolder (name : String) : Bool :=
  subOccurs "overlay".toList (lowerChars name)

/-- Source _is_tile_folder: one of the fixed keywords occurs in name.lower(). -/
def isTileFolder (name : String) : Bool :=
  ["tile", "dungeon", "river", "cavern", "subterranean", "underdark"].any
    (fun k => subOccurs k.toList (lowerChars name))

/-- Model of the regex substitution in _clean_display_name:
strips a single leading digit, optional whitespace, a bullet character,
and optional whitespace (pattern a digit, whitespace, a bullet, whitespace,
anchored at the start; no match leaves the input unchanged). -/
def stripOrdinalBullet (l : List Char) : List Char :=
  match l with
  | [] => []
  | c :: rest =>
    if c.isDigit then
      match rest.dropWhile Char.isWhitespace with
      | [] => l
      | b :: r2 =>
        if b = '•' ∨ b = '·' then r2.dropWhile Char.isWhitespace else l
    else l

/-- First candidate that starts the list is stripped; later candidates are
ignored (models the for/startswith/break loop in _clean_display_name). -/
def stripFirstPre (cands : List (List Char)) (l : List Char) : List Char :=
  match cands with
  | [] => l
  | p :: rest => if p.isPrefixOf l then l.drop p.length else stripFirstPre rest l

/-- First candidate that ends the list is stripped; later candidates are
ignored (models the for/endswith/break loop in _clean_display_name). -/
def stripFirstSuf (cands : List (List Char)) (l : List Char) : List Char :=
  match cands with
  | [] => l
  | p :: rest =>
    if p.isSuffixOf l then l.take (l.length - p.length) else stripFirstSuf rest l

/-- Python str.strip with no argument: whitespace removed from both ends. -/
def trimChars (l : List Char) : List Char :=
  ((l.dropWhile Char.isWhitespace).reverse.dropWhile Char.isWhitespace).reverse

/-- Source _clean_display_name. -/
def cleanDisplayName (folder_name : String) : String :=
  let n1 := stripOrdinalBullet folder_name.toList
  let n2 := stripFirstPre ["Realm Brew - ".toList, "Realm Brew ".toList] n1
  let n3 := stripFirstSuf
    [" - Digital Tiles".toList, " - Digital Overlays".toList,
     " Digital Tiles".toList, " Digital Overlays".toList,
     " Tiles".toList, " Overlays".toList] n2
  String.mk (trimChars n3)

/-- Python str.title restricted to ASCII: an alphabetic character is
uppercased when the previous character is not alphabetic and lowercased
otherwise. -/
def titleChars : List Char → Bool → List Char
  | [], _ => []
  | c :: t, prevAlpha =>
    if c.isAlpha then
      (if prevAlpha then c.toLower else c.toUpper) :: titleChars t true
    else c :: titleChars t false

/-- Python str.title. -/
def pyTitle (s : String) : String := String.mk (titleChars s.toList false)

/-- pathlib Path.stem: the final path component without its last extension
(a leading dot alone does not start an extension). -/
def pathStem (p : String) : String :=
  let base := (p.toList.reverse.takeWhile (fun c => c ≠ '/')).reverse
  let rev := base.reverse
  match rev.dropWhile (fun c => c ≠ '.') with
  | [] => String.mk base
  | _ :: stemRev => if stemRev = [] then String.mk base else String.mk stemRev.reverse

/-- Derived display name of an asset: stem with underscores and hyphens
replaced by spaces, then title-cased (shared by TileInfo and OverlayInfo). -/
def assetDisplayName (path : String) : String :=
  pyTitle (String.mk ((pathStem path).toList.map
    (fun c => if c = '_' then ' ' else if c = '-' then ' ' else c)))

/- ── Asset library (source classes TileInfo, OverlayInfo, TileLibrary) ── -/

structure TileInfo where
  path : String
  category : String
  display_category : String
  name : String
deriving DecidableEq

structure OverlayInfo where
  path : String
  category : String
  display_category : String
  name : String
deriving DecidableEq

def mkTileInfo (path category display : String) : TileInfo :=
  { path := path, category := category, display_category := display,
    name := assetDisplayName path }

def mkOverlayInfo (path category display : String) : OverlayInfo :=
  { path := path, category := category, display_category := display,
    name := assetDisplayName path }

/-- Generic model of a Python dict as an insertion-ordered association
list: assignment replaces in place when the key exists and appends
otherwise. -/
def dictInsert {κ ν : Type} [DecidableEq κ] (l : List (κ × ν)) (k : κ) (v : ν) :
    List (κ × ν) :=
  match l with
  | [] => [(k, v)]
  | (k1, v1) :: t => if k1 = k then (k, v) :: t else (k1, v1) :: dictInsert t k v

/-- Python dict lookup returning an Option. -/
def dictLookup {κ ν : Type} [DecidableEq κ] (l : List (κ × ν)) (k : κ) : Option ν :=
  match l with
  | [] => none
  | (k1, v1) :: t => if k1 = k then some v1 else dictLookup t k

/-- An immediate subdirectory of the chosen root, with the sorted list of
its png file paths (a directory without pngs has an empty list; non-directory
children are not part of the input, matching the is_dir guard). -/
structure FolderEntry where
  name : String
  pngs : List String
deriving DecidableEq

structure TileLibrary where
  categories : List (String × List TileInfo)
  overlay_categories : List (String × List OverlayInfo)
deriving DecidableEq

/-- One iteration of the directory loop in TileLibrary.load: skip folders
without pngs, classify by _is_overlay_folder, and key the mapping by the
cleaned display name. -/
def libStep (lib : TileLibrary) (d : FolderEntry) : TileLibrary :=
  if d.pngs.isEmpty then lib
  else if isOverlayFolder d.name then
    { lib with overlay_categories :=
        (dictInsert lib.overlay_categories (cleanDisplayName d.name)
          (d.pngs.map (fun p => mkOverlayInfo p d.name (cleanDisplayName d.name)))) }
  else
    { lib with categories :=
        (dictInsert lib.categories (cleanDisplayName d.name)
          (d.pngs.map (fun p => mkTileInfo p d.name (cleanDisplayName d.name)))) }

/-- Source TileLibrary.load: iterate the sorted subdirectories and return
the populated mappings together with the boolean result. -/
def TileLibrary.load (folders : List FolderEntry) : TileLibrary × Bool :=
  let lib := folders.foldl libStep { categories := [], overlay_categories := [] }
  (lib, !lib.categories.isEmpty || !lib.overlay_categories.isEmpty)


/- ── Map model (source classes PlacedTile, PlacedOverlay, HexMap) ────── -/

/-- Source constant OVERLAY_SCALE_DEFAULT = 0.5. -/
def OVERLAY_SCALE_DEFAULT : ℚ := 1/2

structure PlacedTile where
  col : ℤ
  row : ℤ
  path : String
  category : String
  rotation : ℤ
deriving DecidableEq

structure PlacedOverlay where
  col : ℤ
  row : ℤ
  path : String
  offset_x : ℚ
  offset_y : ℚ
  rotation : ℚ
  scale : ℚ
deriving DecidableEq

/-- Source class HexMap: a dict from (col, row) to PlacedTile, an ordered
overlay list, and the remembered file path. -/
structure HexMap where
  tiles : List ((ℤ × ℤ) × PlacedTile)
  overlays : List PlacedOverlay
  filepath : Option String
deriving DecidableEq

/-- The dict key used for a placed tile. -/
def tileKey (t : PlacedTile) : ℤ × ℤ := (t.col, t.row)

/-- Tile placement from App._on_click in place_tile mode:
self.hex_map.tiles[(col, row)] = PlacedTile(col, row, path, category, rot). -/
def placeTile (m : HexMap) (col row : ℤ) (path category : String) (rot : ℤ) :
    HexMap :=
  { m with tiles :=
      (dictInsert m.tiles (col, row)
        { col := col, row := row, path := path, category := category,
          rotation := rot }) }

/- ── Persisted document format and HexMap.save / HexMap.load ─────────── -/

/-- One element of the tiles array of a persisted document; every field is
optional because the JSON object may lack any key.  col, row and path are
required on read (KeyError when absent), the rest use dict.get defaults. -/
structure TileEntry where
  col : Option ℤ
  row : Option ℤ
  path : Option String
  category : Option String
  rotation : Option ℤ
deriving DecidableEq

/-- One element of the overlays array of a persisted document. -/
structure OverlayEntry where
  col : Option ℤ
  row : Option ℤ
  path : Option String
  offset_x : Option ℚ
  offset_y : Option ℚ
  rotation : Option ℚ
  scale : Option ℚ
deriving DecidableEq

/-- A parsed JSON document for a map; a missing tiles or overlays key is
identified with the empty array (the code uses data.get with default []). -/
structure MapDoc where
  tiles : List TileEntry
  overlays : List OverlayEntry
deriving DecidableEq

/-- Subscript access t[k] on a JSON object: KeyError when the key is absent. -/
def reqField {α : Type} (o : Option α) : Except Unit α :=
  match o with
  | none => Except.error ()
  | some a => Except.ok a

/-- Building one PlacedTile inside the dict comprehension of HexMap.load. -/
def parseTile (e : TileEntry) : Except Unit PlacedTile := do
  let c ← reqField e.col
  let r ← reqField e.row
  let p ← reqField e.path
  Except.ok { col := c, row := r, path := p,
              category := e.category.getD "",
              rotation := e.rotation.getD 0 }

/-- Building one PlacedOverlay inside the list comprehension of HexMap.load. -/
def parseOverlay (e : OverlayEntry) : Except Unit PlacedOverlay := do
  let c ← reqField e.col
  let r ← reqField e.row
  let p ← reqField e.path
  Except.ok { col := c, row := r, path := p,
              offset_x := e.offset_x.getD 0,
              offset_y := e.offset_y.getD 0,
              rotation := e.rotation.getD 0,
              scale := e.scale.getD OVERLAY_SCALE_DEFAULT }

def tileToEntry (t : PlacedTile) : TileEntry :=
  { col := some t.col, row := some t.row, path := some t.path,
    category := some t.category, rotation := some t.rotation }

def overlayToEntry (o : PlacedOverlay) : OverlayEntry :=
  { col := some o.col, row := some o.row, path := some o.path,
    offset_x := some o.offset_x, offset_y := some o.offset_y,
    rotation := some o.rotation, scale := some o.scale }

/-- Source HexMap.save: emit every tile of the dict (in dict order) and
every overlay (in list order) with all fields present. -/
def HexMap.save (m : HexMap) : MapDoc :=
  { tiles := m.tiles.map (fun kv => tileToEntry kv.2),
    overlays := m.overlays.map overlayToEntry }

/-- The dict comprehension keyed by (col, row) in HexMap.load. -/
def buildTileDict (ts : List PlacedTile) : List ((ℤ × ℤ) × PlacedTile) :=
  ts.foldl (fun d t => dictInsert d (tileKey t) t) []

/-- Source HexMap.load.  The input is none when the file is unreadable or
not valid JSON (json.load raises before any mutation).  The tiles dict is
assigned before the overlays comprehension runs, so an overlay entry with a
missing required field raises after self.tiles was already replaced; the
error branch carries the state the object is left in when the exception
propagates. -/
def HexMap.load (m : HexMap) (path : String) (input : Option MapDoc) :
    Except HexMap HexMap :=
  match input with
  | none => Except.error m
  | some doc =>
    match doc.tiles.mapM parseTile with
    | Except.error _ => Except.error m
    | Except.ok ts =>
      match doc.overlays.mapM parseOverlay with
      | Except.error _ => Except.error { m with tiles := buildTileDict ts }
      | Except.ok os =>
        Except.ok { tiles := buildTileDict ts, overlays := os,
                    filepath := some path }

/- ── Overlay mutations (App._rotate_overlay, App._scale_overlay) ─────── -/

/-- In-place update of the element at a position, leaving the list
unchanged when the index is out of range. -/
def modifyIdx {α : Type} (l : List α) (i : ℕ) (f : α → α) : List α :=
  match l, i with
  | [], _ => []
  | a :: t, 0 => f a :: t
  | a :: t, n + 1 => a :: modifyIdx t n f

/-- Python float modulo by 360 (result has the sign of the divisor). -/
def qmod360 (x : ℚ) : ℚ := x - 360 * ⌊x / 360⌋

/-- The rotation update of App._rotate_overlay:
ov.rotation = (ov.rotation + delta) % 360. -/
def rotStep (delta : ℚ) (r : ℚ) : ℚ := qmod360 (r + delta)

/-- Source App._rotate_overlay: guarded by a valid selected index. -/
def rotateOverlay (ovs : List PlacedOverlay) (idx : ℕ) (delta : ℚ) :
    List PlacedOverlay :=
  if idx < ovs.length then
    modifyIdx ovs idx (fun ov => { ov with rotation := rotStep delta ov.rotation })
  else ovs

/-- Python round to an integer: round-half-to-even (banker rounding). -/
def pyRoundQ (x : ℚ) : ℤ :=
  if Int.fract x = 1/2 then (if 2 ∣ ⌊x⌋ then ⌊x⌋ else ⌊x⌋ + 1) else round x

/-- Python round(x, 2): round-half-to-even at two decimal places. -/
def pyRound2 (x : ℚ) : ℚ := (pyRoundQ (x * 100) : ℚ) / 100

/-- The clamp max(0.1, min(5.0, x)) of App._scale_overlay. -/
def clampScale (x : ℚ) : ℚ := max (1/10) (min 5 x)

/-- The scale update of App._scale_overlay:
ov.scale = round(max(0.1, min(5.0, ov.scale + delta)), 2). -/
def scaleStep (delta : ℚ) (s : ℚ) : ℚ := pyRound2 (clampScale (s + delta))

/-- Source App._scale_overlay: guarded by a valid selected index. -/
def scaleOverlay (ovs : List PlacedOverlay) (idx : ℕ) (delta : ℚ) :
    List PlacedOverlay :=
  if idx < ovs.length then
    modifyIdx ovs idx (fun ov => { ov with scale := scaleStep delta ov.scale })
  else ovs

/- ── Hex geometry (source hex_to_pixel, pixel_to_hex) ────────────────── -/

/-- Python round on a real argument: round-half-to-even (banker rounding). -/
noncomputable def pyRound (x : ℝ) : ℤ :=
  if Int.fract x = 1/2 then (if 2 ∣ ⌊x⌋ then ⌊x⌋ else ⌊x⌋ + 1) else round x

/-- Source hex_to_pixel (flat-top offset layout); col & 1 is col % 2. -/
noncomputable def hex_to_pixel (col row : ℤ) (size : ℝ) : ℝ × ℝ :=
  (size * 1.5 * col, size * Real.sqrt 3 * (row + 0.5 * ((col % 2 : ℤ) : ℝ)))

/-- The candidate produced by one iteration of the search loops in
pixel_to_hex for a column estimate c0 and a delta pair d = (dc, dr). -/
noncomputable def p2hCand (py size : ℝ) (c0 : ℤ) (d : ℤ × ℤ) : ℤ × ℤ :=
  (c0 + d.1,
   pyRound (py / (size * Real.sqrt 3) - 0.5 * (((c0 + d.1) % 2 : ℤ) : ℝ)) + d.2)

/-- Squared distance from (px, py) to the candidate's center. -/
noncomputable def p2hDist (px py size : ℝ) (c0 : ℤ) (d : ℤ × ℤ) : ℝ :=
  (px - (hex_to_pixel (p2hCand py size c0 d).1 (p2hCand py size c0 d).2 size).1) ^ 2 +
  (py - (hex_to_pixel (p2hCand py size c0 d).1 (p2hCand py size c0 d).2 size).2) ^ 2

/-- One iteration of the best/best_d update in pixel_to_hex; the initial
best_d = float inf is the none case, and any finite distance replaces it. -/
noncomputable def p2hStep (px py size : ℝ) (c0 : ℤ)
    (acc : (ℤ × ℤ) × Option ℝ) (d : ℤ × ℤ) : (ℤ × ℤ) × Option ℝ :=
  match acc.2 with
  | none => (p2hCand py size c0 d, some (p2hDist px py size c0 d))
  | some b =>
    if p2hDist px py size c0 d < b then
      (p2hCand py size c0 d, some (p2hDist px py size c0 d))
    else acc

/-- The (dc, dr) pairs in loop order: dc in (-1, 0, 1), dr in (-2, .., 2). -/
def deltaPairs : List (ℤ × ℤ) :=
  [(-1, -2), (-1, -1), (-1, 0), (-1, 1), (-1, 2),
   (0, -2), (0, -1), (0, 0), (0, 1), (0, 2),
   (1, -2), (1, -1), (1, 0), (1, 1), (1, 2)]

/-- Source pixel_to_hex: brute-force nearest-center search around the
naive column estimate, starting from best = (col, 0), best_d = inf. -/
noncomputable def pixel_to_hex (px py size : ℝ) : ℤ × ℤ :=
  let col := pyRound (px / (size * 1.5))
  (deltaPairs.foldl (p2hStep px py size col) ((col, 0), none)).1

/- ── Camera zoom (source App._zoom) ──────────────────────────────────── -/

def MIN_HEX_SIZE : ℝ := 20
def MAX_HEX_SIZE : ℝ := 160

structure Camera where
  cam_x : ℝ
  cam_y : ℝ
  hex_size : ℝ

/-- Source App._zoom: clamp the stepped radius to [20, 160], then apply the
zoom-to-cursor offset transform at the event position (ex, ey). -/
noncomputable def zoomStep (st : Camera) (direction : ℤ) (ex ey : ℝ) : Camera :=
  let ns := max MIN_HEX_SIZE (min MAX_HEX_SIZE (st.hex_size + direction * 5))
  let scale := ns / st.hex_size
  { cam_x := ex - scale * (ex - st.cam_x),
    cam_y := ey - scale * (ey - st.cam_y),
    hex_size := ns }

/- ── Auxiliary predicates and concrete instances used by theorems ────── -/

abbrev c5Map : HexMap :=
  { tiles := [((0, 0), ⟨0, 0, "old.png", "Forest", 0⟩)],
    overlays := [], filepath := none }

abbrev c1PrevMap : HexMap :=
  { tiles := [((0, 0), ⟨0, 0, "t.png", "Forest", 0⟩)],
    overlays := [⟨1, 1, "o.png", 0, 0, 0, 1/2⟩],
    filepath := none }

/-- A well-formed document whose single overlay entry lacks the required
row and path fields (the tiles array is empty and parses fine). -/
abbrev c1BadDoc : MapDoc :=
  { tiles := [],
    overlays := [⟨some 0, none, none, none, none, none, none⟩] }

abbrev c7Overlays : List PlacedOverlay := [⟨0, 0, "o.png", 0, 0, 45, 1/2⟩]

/-- Values on the two-decimal grid. -/
def isCent (x : ℚ) : Prop := ∃ k : ℤ, x = (k : ℚ) / 100

abbrev c6Overlays : List PlacedOverlay := [⟨0, 0, "s.png", 0, 0, 0, 1/2⟩]

abbrev c10Overlays : List PlacedOverlay := [⟨0, 0, "q.png", 0, 0, 0, 1/2⟩]

/-- The spec scenario map: one tile at (2, -1) rotation 3 and one overlay
at (0, 0) with offset (5.5, -3.2), rotation 45 and scale 1.2. -/
abbrev c4Map : HexMap :=
  { tiles := [((2, -1), ⟨2, -1, "forest.png", "Forest", 3⟩)],
    overlays := [⟨0, 0, "tree.png", 11/2, -(16/5), 45, 6/5⟩],
    filepath := none }

/-- The best_d accumulator is still the initial infinity, or holds a
strictly positive distance. -/
abbrev goodAcc (acc : (ℤ × ℤ) × Option ℝ) : Prop :=
  acc.2 = none ∨ ∃ b, acc.2 = some b ∧ 0 < b

/- ── Association-list (dict) lemmas ──────────────────────────────────── -/

theorem dictInsert_length_of_mem {κ ν : Type} [DecidableEq κ]
    (l : List (κ × ν)) (k : κ) (v : ν) (h : k ∈ l.map Prod.fst) :
    (dictInsert l k v).length = l.length := by
  induction l with
  | nil => simp at h
  | cons a t ih =>
    obtain ⟨k1, v1⟩ := a
    simp only [List.map_cons, List.mem_cons] at h
    by_cases hk : k1 = k
    · simp [dictInsert, hk]
    · have hmem : k ∈ t.map Prod.fst := by
        rcases h with h | h
        · exact absurd h.symm hk
        · exact h
      simp [dictInsert, hk, ih hmem]

theorem dictLookup_dictInsert_self {κ ν : Type} [DecidableEq κ]
    (l : List (κ × ν)) (k : κ) (v : ν) :
    dictLookup (dictInsert l k v) k = some v := by
  induction l with
  | nil => simp [dictInsert, dictLookup]
  | cons a t ih =>
    obtain ⟨k1, v1⟩ := a
    by_cases hk : k1 = k
    · simp [dictInsert, hk, dictLookup]
    · simp [dictInsert, hk, dictLookup, ih]

theorem mem_map_fst_dictInsert {κ ν : Type} [DecidableEq κ]
    (l : List (κ × ν)) (k a : κ) (v : ν)
    (h : a ∈ (dictInsert l k v).map Prod.fst) : a = k ∨ a ∈ l.map Prod.fst := by
  induction l with
  | nil => simpa [dictInsert] using h
  | cons b t ih =>
    obtain ⟨k1, v1⟩ := b
    by_cases hk : k1 = k
    · simp [dictInsert, hk] at h
      rcases h with h | h
      · exact Or.inl h
      · exact Or.inr (by simp [h])
    · simp only [dictInsert, if_neg hk, List.map_cons, List.mem_cons] at h
      rcases h with h | h
      · exact Or.inr (by simp [h])
      · rcases ih h with h1 | h1
        · exact Or.inl h1
        · exact Or.inr (by simp [h1])

theorem mem_map_fst_dictInsert_of_mem {κ ν : Type} [DecidableEq κ]
    (l : List (κ × ν)) (k a : κ) (v : ν) (h : a ∈ l.map Prod.fst) :
    a ∈ (dictInsert l k v).map Prod.fst := by
  induction l with
  | nil => simp at h
  | cons b t ih =>
    obtain ⟨k1, v1⟩ := b
    simp only [List.map_cons, List.mem_cons] at h
    by_cases hk : k1 = k
    · subst hk
      simp only [dictInsert, List.map_cons, List.mem_cons]
      simpa using h
    · simp only [dictInsert, if_neg hk, List.map_cons, List.mem_cons]
      rcases h with h | h
      · exact Or.inl h
      · exact Or.inr (ih h)

theorem dictInsert_mem_map_fst_self {κ ν : Type} [DecidableEq κ]
    (l : List (κ × ν)) (k : κ) (v : ν) : k ∈ (dictInsert l k v).map Prod.fst := by
  induction l with
  | nil => simp [dictInsert]
  | cons b t ih =>
    obtain ⟨k1, v1⟩ := b
    by_cases hk : k1 = k
    · simp [dictInsert, hk]
    · simp only [dictInsert, if_neg hk, List.map_cons, List.mem_cons]
      exact Or.inr ih

theorem nodup_map_fst_dictInsert {κ ν : Type} [DecidableEq κ]
    (l : List (κ × ν)) (k : κ) (v : ν)
    (h : (l.map Prod.fst).Nodup) : ((dictInsert l k v).map Prod.fst).Nodup := by
  induction l with
  | nil => simp [dictInsert]
  | cons b t ih =>
    obtain ⟨k1, v1⟩ := b
    simp only [List.map_cons, List.nodup_cons] at h
    obtain ⟨hk1, ht⟩ := h
    by_cases hk : k1 = k
    · subst hk
      simp only [dictInsert, List.map_cons, List.nodup_cons]
      simpa using And.intro hk1 ht
    · simp only [dictInsert, if_neg hk, List.map_cons, List.nodup_cons]
      refine ⟨?_, ih ht⟩
      intro hmem
      rcases mem_map_fst_dictInsert t k k1 v hmem with h1 | h1
      · exact hk h1
      · exact hk1 h1

/- ── Claim C5: tile placement overwrites ─────────────────────────────── -/

/-- Claim C5: placing a tile at an already-occupied hex coordinate
overwrites the existing entry rather than adding a duplicate: the tile
count is unchanged, the new tile (path, category, rotation) is recorded at
that coordinate, and after any placement every hex coordinate still maps
to at most one tile (the dict keys stay nodup). -/
theorem C5_place_tile_overwrites
    (m : HexMap) (col row : ℤ) (path category : String) (rot : ℤ) :
    ((col, row) ∈ m.tiles.map Prod.fst →
      (placeTile m col row path category rot).tiles.length = m.tiles.length ∧
      dictLookup (placeTile m col row path category rot).tiles (col, row) =
        some ⟨col, row, path, category, rot⟩) ∧
    ((m.tiles.map Prod.fst).Nodup →
      ((placeTile m col row path category rot).tiles.map Prod.fst).Nodup) := by
  constructor
  · intro hocc
    exact ⟨dictInsert_length_of_mem _ _ _ hocc, dictLookup_dictInsert_self _ _ _⟩
  · intro hnd
    exact nodup_map_fst_dictInsert _ _ _ hnd
theorem C5_place_tile_overwrites_witness :
    (placeTile c5Map 0 0 "new.png" "Hills" 2).tiles.length = c5Map.tiles.length ∧
    dictLookup (placeTile c5Map 0 0 "new.png" "Hills" 2).tiles (0, 0) =
      some ⟨0, 0, "new.png", "Hills", 2⟩ ∧
    ((placeTile c5Map 0 0 "new.png" "Hills" 2).tiles.map Prod.fst).Nodup := by
  have h := C5_place_tile_overwrites c5Map 0 0 "new.png" "Hills" 2
  have h1 := h.1 (by decide)
  exact ⟨h1.1, h1.2, h.2 (by decide)⟩

/- ── Claim C1: load failure is not atomic ────────────────────────────── -/

/-- Claim C1 is violated by the code: on a well-formed JSON document whose
overlay entries lack a required field, HexMap.load raises only after the
tiles dict was already reassigned, so the previously loaded tile mapping is
clobbered (here: emptied) while the overlay list survives.  The spec
requires the whole map to be left unchanged (atomic replace-on-success). -/
theorem C1_load_failure_mutates_tiles :
    HexMap.load c1PrevMap "m.hexmap" (some c1BadDoc) =
      Except.error { c1PrevMap with tiles := [] } ∧
    ({ c1PrevMap with tiles := [] } : HexMap).tiles ≠ c1PrevMap.tiles ∧
    ({ c1PrevMap with tiles := [] } : HexMap).overlays = c1PrevMap.overlays := by
  refine ⟨by rfl, by decide, by rfl⟩

/- ── Claim C9: display-name scenarios ────────────────────────────────── -/

/-- Claim C9: the folder named 1 bullet Realm Brew - Forest Tiles yields
display name Forest and is classified (by TileLibrary.load) as a tile set;
the folder Magic Overlays yields display name Magic and is classified as
an overlay set. -/
theorem C9_display_name_scenarios :
    cleanDisplayName "1 • Realm Brew - Forest Tiles" = "Forest" ∧
    (TileLibrary.load [⟨"1 • Realm Brew - Forest Tiles",
        ["oak.png"]⟩]).1.categories.map Prod.fst = ["Forest"] ∧
    (TileLibrary.load [⟨"1 • Realm Brew - Forest Tiles",
        ["oak.png"]⟩]).1.overlay_categories = [] ∧
    cleanDisplayName "Magic Overlays" = "Magic" ∧
    (TileLibrary.load [⟨"Magic Overlays",
        ["m.png"]⟩]).1.overlay_categories.map Prod.fst = ["Magic"] ∧
    (TileLibrary.load [⟨"Magic Overlays", ["m.png"]⟩]).1.categories = [] := by
  decide

/- ── Claim C2: tile classification (keyword check is never applied) ──── -/

/-- Claim C2 counterexample: the folder Forestland contains a png, its name
matches neither the overlay substring nor any tile keyword, yet
TileLibrary.load still adds it as a tile set (the claim says it appears in
neither mapping). -/
theorem C2_counterexample :
    isOverlayFolder "Forestland" = false ∧
    isTileFolder "Forestland" = false ∧
    (TileLibrary.load [⟨"Forestland", ["a.png"]⟩]).1.categories.map
      Prod.fst = ["Forestland"] := by
  decide

theorem libStep_preserves_cat (lib : TileLibrary) (d : FolderEntry) (k : String)
    (h : k ∈ lib.categories.map Prod.fst) :
    k ∈ (libStep lib d).categories.map Prod.fst := by
  unfold libStep
  split
  · exact h
  · split
    · exact h
    · exact mem_map_fst_dictInsert_of_mem _ _ _ _ h

theorem foldl_libStep_preserves (fs : List FolderEntry) (lib : TileLibrary)
    (k : String) (h : k ∈ lib.categories.map Prod.fst) :
    k ∈ (fs.foldl libStep lib).categories.map Prod.fst := by
  induction fs generalizing lib with
  | nil => simpa using h
  | cons f t ih => exact ih _ (libStep_preserves_cat lib f k h)

theorem foldl_libStep_adds (fs : List FolderEntry) (d : FolderEntry)
    (hpng : d.pngs ≠ []) (hov : isOverlayFolder d.name = false) :
    ∀ (lib : TileLibrary), d ∈ fs →
      cleanDisplayName d.name ∈ (fs.foldl libStep lib).categories.map Prod.fst := by
  induction fs with
  | nil =>
    intro lib h
    simp at h
  | cons f t ih =>
    intro lib hmem
    rcases List.mem_cons.mp hmem with h | h
    · subst h
      rw [List.foldl_cons]
      apply foldl_libStep_preserves
      have hne : d.pngs.isEmpty = false := by
        cases h2 : d.pngs
        · exact absurd h2 hpng
        · simp [h2]
      have hstep : libStep lib d =
          { lib with categories :=
              (dictInsert lib.categories (cleanDisplayName d.name)
                (d.pngs.map (fun p => mkTileInfo p d.name (cleanDisplayName d.name)))) } := by
        unfold libStep
        rw [hne, hov]
        rfl
      rw [hstep]
      exact dictInsert_mem_map_fst_self _ _ _
    · exact ih (libStep lib f) h

/-- Claim C2 amended: during asset-library load, every immediate
subdirectory with at least one png whose raw name does not contain the
case-insensitive substring overlay is added to the tile mapping under its
cleaned display name, regardless of the tile keyword set (the predicate
_is_tile_folder exists in the source but is never consulted); no such
folder is silently skipped. -/
theorem C2_amended_nonoverlay_always_tile_set
    (folders : List FolderEntry) (d : FolderEntry) (hmem : d ∈ folders)
    (hpng : d.pngs ≠ []) (hov : isOverlayFolder d.name = false) :
    cleanDisplayName d.name ∈ (TileLibrary.load folders).1.categories.map Prod.fst :=
  foldl_libStep_adds folders d hpng hov _ hmem

theorem C2_amended_witness :
    cleanDisplayName "Forestland" ∈
      (TileLibrary.load [⟨"Forestland", ["a.png"]⟩]).1.categories.map Prod.fst :=
  C2_amended_nonoverlay_always_tile_set
    [⟨"Forestland", ["a.png"]⟩] ⟨"Forestland", ["a.png"]⟩
    (by decide) (by decide) (by decide)

/- ── modifyIdx lemmas ────────────────────────────────────────────────── -/

theorem modifyIdx_length {α : Type} (l : List α) (i : ℕ) (f : α → α) :
    (modifyIdx l i f).length = l.length := by
  induction l generalizing i with
  | nil => rfl
  | cons a t ih =>
    cases i with
    | zero => rfl
    | succ n => simp [modifyIdx, ih]

theorem modifyIdx_get? {α : Type} (l : List α) (i : ℕ) (f : α → α) :
    (modifyIdx l i f).get? i = (l.get? i).map f := by
  induction l generalizing i with
  | nil => cases i <;> rfl
  | cons a t ih =>
    cases i with
    | zero => rfl
    | succ n => simpa [modifyIdx] using ih n

theorem modifyIdx_modifyIdx {α : Type} (l : List α) (i : ℕ) (f g : α → α) :
    modifyIdx (modifyIdx l i g) i f = modifyIdx l i (fun a => f (g a)) := by
  induction l generalizing i with
  | nil => rfl
  | cons a t ih =>
    cases i with
    | zero => rfl
    | succ n => simp [modifyIdx, ih]

theorem modifyIdx_eq_self {α : Type} (l : List α) (i : ℕ) (f : α → α)
    (h : ∀ a, l.get? i = some a → f a = a) : modifyIdx l i f = l := by
  induction l generalizing i with
  | nil => rfl
  | cons a t ih =>
    cases i with
    | zero =>
      have ha := h a rfl
      simp [modifyIdx, ha]
    | succ n =>
      simp only [modifyIdx, List.cons.injEq, true_and]
      exact ih n (fun b hb => h b hb)

/- ── qmod360 lemmas ──────────────────────────────────────────────────── -/

theorem qmod360_nonneg (x : ℚ) : 0 ≤ qmod360 x := by
  have h1 : ((⌊x / 360⌋ : ℚ)) ≤ x / 360 := Int.floor_le _
  have h3 : (360 : ℚ) * (x / 360) = x := by ring
  unfold qmod360
  linarith

theorem qmod360_lt (x : ℚ) : qmod360 x < 360 := by
  have h2 : x / 360 < ⌊x / 360⌋ + 1 := Int.lt_floor_add_one _
  have h3 : (360 : ℚ) * (x / 360) = x := by ring
  unfold qmod360
  linarith

theorem qmod360_eq_self (x : ℚ) (h0 : 0 ≤ x) (h1 : x < 360) : qmod360 x = x := by
  have hf : ⌊x / 360⌋ = 0 := by
    rw [Int.floor_eq_zero_iff, Set.mem_Ico]
    exact ⟨div_nonneg h0 (by norm_num), (div_lt_one (by norm_num)).mpr h1⟩
  unfold qmod360
  rw [hf]
  norm_num

theorem qmod360_qmod360_add (x y : ℚ) : qmod360 (qmod360 x + y) = qmod360 (x + y) := by
  unfold qmod360
  have h : (x - 360 * ⌊x / 360⌋ + y) / 360 = (x + y) / 360 - (⌊x / 360⌋ : ℚ) := by
    ring
  rw [h, Int.floor_sub_int]
  push_cast
  ring

theorem qmod360_add_360 (x : ℚ) : qmod360 (x + 360) = qmod360 x := by
  unfold qmod360
  have h : (x + 360) / 360 = x / 360 + 1 := by ring
  rw [h, Int.floor_add_one]
  push_cast
  ring

theorem rotStep_iterate (delta : ℚ) (n : ℕ) (r : ℚ) :
    (rotStep delta)^[n] (qmod360 r) = qmod360 (r + n * delta) := by
  induction n generalizing r with
  | zero => simp
  | succ k ih =>
    rw [Function.iterate_succ_apply]
    have h1 : rotStep delta (qmod360 r) = qmod360 (r + delta) := by
      unfold rotStep
      exact qmod360_qmod360_add r delta
    rw [h1, ih (r + delta)]
    congr 1
    push_cast
    ring

theorem rotateOverlay_iterate (ovs : List PlacedOverlay) (idx : ℕ) (delta : ℚ)
    (h : idx < ovs.length) (n : ℕ) :
    (fun l => rotateOverlay l idx delta)^[n] ovs =
      modifyIdx ovs idx
        (fun ov => { ov with rotation := (rotStep delta)^[n] ov.rotation }) := by
  induction n with
  | zero =>
    simp only [Function.iterate_zero_apply]
    exact (modifyIdx_eq_self _ _ _ (fun a _ => rfl)).symm
  | succ k ih =>
    rw [Function.iterate_succ_apply', ih]
    show rotateOverlay _ idx delta = _
    unfold rotateOverlay
    rw [if_pos (by rwa [modifyIdx_length]), modifyIdx_modifyIdx]
    congr 1
    funext ov
    rw [Function.iterate_succ_apply']

/- ── Claim C7: overlay rotation wraps modulo 360 ─────────────────────── -/

/-- Claim C7: after every rotation delta applied through App._rotate_overlay
the stored rotation lies in the interval from 0 inclusive to 360 exclusive,
and applying a +15 degree rotation twenty-four times to a selected overlay
whose rotation is in that interval returns the overlay list to exactly its
original value. -/
theorem C7_rotation_wraps :
    (∀ (ovs : List PlacedOverlay) (idx : ℕ) (delta : ℚ) (ov : PlacedOverlay),
        (rotateOverlay ovs idx delta).get? idx = some ov →
        0 ≤ ov.rotation ∧ ov.rotation < 360) ∧
    (∀ (ovs : List PlacedOverlay) (idx : ℕ) (ov : PlacedOverlay),
        ovs.get? idx = some ov → 0 ≤ ov.rotation → ov.rotation < 360 →
        (fun l => rotateOverlay l idx 15)^[24] ovs = ovs) := by
  constructor
  · intro ovs idx delta ov hov
    unfold rotateOverlay at hov
    by_cases hlen : idx < ovs.length
    · rw [if_pos hlen, modifyIdx_get?] at hov
      obtain ⟨a, _, hfa⟩ := Option.map_eq_some'.mp hov
      have hrot : ov.rotation = qmod360 (a.rotation + delta) := by
        rw [← hfa]
        rfl
      rw [hrot]
      exact ⟨qmod360_nonneg _, qmod360_lt _⟩
    · rw [if_neg hlen] at hov
      rw [List.get?_eq_none.mpr (Nat.le_of_not_lt hlen)] at hov
      exact absurd hov (by simp)
  · intro ovs idx ov hov h0 h1
    have hlen : idx < ovs.length := by
      by_contra hc
      rw [List.get?_eq_none.mpr (Nat.le_of_not_lt hc)] at hov
      exact absurd hov (by simp)
    rw [rotateOverlay_iterate ovs idx 15 hlen 24]
    apply modifyIdx_eq_self
    intro a ha
    have haov : a = ov := by
      rw [hov] at ha
      exact (Option.some.injEq _ _ ▸ ha).symm ▸ rfl
    subst haov
    have hrot : (rotStep 15)^[24] a.rotation = a.rotation := by
      have h2 := rotStep_iterate 15 24 a.rotation
      rw [qmod360_eq_self a.rotation h0 h1] at h2
      rw [h2]
      have h3 : a.rotation + (24 : ℕ) * 15 = a.rotation + 360 := by
        push_cast
        ring
      rw [h3, qmod360_add_360, qmod360_eq_self a.rotation h0 h1]
    rw [hrot]
theorem C7_rotation_wraps_witness :
    ((0 : ℚ) ≤ qmod360 (45 + 15) ∧ qmod360 (45 + 15) < 360) ∧
    (fun l => rotateOverlay l 0 15)^[24] c7Overlays = c7Overlays := by
  constructor
  · exact C7_rotation_wraps.1 c7Overlays 0 15
      ⟨0, 0, "o.png", 0, 0, qmod360 (45 + 15), 1/2⟩ rfl
  · exact C7_rotation_wraps.2 c7Overlays 0
      ⟨0, 0, "o.png", 0, 0, 45, 1/2⟩ rfl (by norm_num) (by norm_num)

/- ── pyRoundQ / pyRound2 lemmas ──────────────────────────────────────── -/
theorem pyRoundQ_intCast (n : ℤ) : pyRoundQ (n : ℚ) = n := by
  unfold pyRoundQ
  rw [Int.fract_intCast, if_neg (by norm_num)]
  exact round_intCast n

theorem le_pyRoundQ (m : ℤ) (x : ℚ) (h : (m : ℚ) ≤ x) : m ≤ pyRoundQ x := by
  unfold pyRoundQ
  split
  · have hfloor : m ≤ ⌊x⌋ := Int.le_floor.mpr h
    split
    · exact hfloor
    · omega
  · rw [round_eq]
    apply Int.le_floor.mpr
    linarith

theorem pyRoundQ_le (m : ℤ) (x : ℚ) (h : x ≤ (m : ℚ)) : pyRoundQ x ≤ m := by
  unfold pyRoundQ
  split
  · rename_i hf
    have hx : x = ⌊x⌋ + 1/2 := by
      conv_lhs => rw [← Int.floor_add_fract x]
      rw [hf]
    have hlt : (⌊x⌋ : ℚ) < (m : ℚ) := by linarith
    have hle : ⌊x⌋ + 1 ≤ m := Int.lt_iff_add_one_le.mp (by exact_mod_cast hlt)
    split
    · omega
    · exact hle
  · rw [round_eq]
    have h2 : ⌊x + 1/2⌋ < m + 1 := by
      apply Int.floor_lt.mpr
      push_cast
      linarith
    omega

theorem pyRound2_cent (k : ℤ) : pyRound2 ((k : ℚ) / 100) = (k : ℚ) / 100 := by
  unfold pyRound2
  have h : (k : ℚ) / 100 * 100 = (k : ℚ) := by field_simp
  rw [h, pyRoundQ_intCast]

theorem pyRound2_bounds (x : ℚ) (h1 : 1/10 ≤ x) (h2 : x ≤ 5) :
    1/10 ≤ pyRound2 x ∧ pyRound2 x ≤ 5 := by
  unfold pyRound2
  have hlo : (10 : ℤ) ≤ pyRoundQ (x * 100) :=
    le_pyRoundQ 10 _ (by push_cast; linarith)
  have hhi : pyRoundQ (x * 100) ≤ (500 : ℤ) :=
    pyRoundQ_le 500 _ (by push_cast; linarith)
  have hlo2 : (10 : ℚ) ≤ (pyRoundQ (x * 100) : ℚ) := by exact_mod_cast hlo
  have hhi2 : ((pyRoundQ (x * 100) : ℚ)) ≤ 500 := by exact_mod_cast hhi
  constructor
  · linarith
  · linarith

theorem clampScale_mem (x : ℚ) : 1/10 ≤ clampScale x ∧ clampScale x ≤ 5 := by
  unfold clampScale
  exact ⟨le_max_left _ _, max_le (by norm_num) (min_le_left _ _)⟩

theorem scaleStep_mem (delta s : ℚ) :
    1/10 ≤ scaleStep delta s ∧ scaleStep delta s ≤ 5 :=
  pyRound2_bounds _ (clampScale_mem _).1 (clampScale_mem _).2

theorem scaleStep_cent (delta s : ℚ) : isCent (scaleStep delta s) :=
  ⟨pyRoundQ (clampScale (s + delta) * 100), rfl⟩

theorem scaleStep_down_eq (v : ℚ) (hc : isCent v) (h1 : 1/10 ≤ v) (h2 : v ≤ 5) :
    scaleStep (-(1/10)) v = if v ≤ 2/10 then 1/10 else v - 1/10 := by
  obtain ⟨k, hk⟩ := hc
  have hmin : min 5 (v + -(1/10)) = v + -(1/10) := min_eq_right (by linarith)
  by_cases hle : v ≤ 2/10
  · have hmax : clampScale (v + -(1/10)) = 1/10 := by
      unfold clampScale
      rw [hmin]
      exact max_eq_left (by linarith)
    unfold scaleStep
    rw [hmax, if_pos hle]
    have h10 : (1 : ℚ)/10 = ((10 : ℤ) : ℚ) / 100 := by norm_num
    rw [h10, pyRound2_cent]
  · have hmax : clampScale (v + -(1/10)) = v + -(1/10) := by
      unfold clampScale
      rw [hmin]
      exact max_eq_right (by linarith)
    unfold scaleStep
    rw [hmax, if_neg hle]
    have hv : v + -(1/10) = ((k - 10 : ℤ) : ℚ) / 100 := by
      rw [hk]
      push_cast
      ring
    rw [hv, pyRound2_cent, hk]
    push_cast
    ring

theorem scaleStep_up_eq (v : ℚ) (hc : isCent v) (h1 : 1/10 ≤ v) (h2 : v ≤ 5) :
    scaleStep (1/10) v = if 49/10 ≤ v then 5 else v + 1/10 := by
  obtain ⟨k, hk⟩ := hc
  by_cases hge : 49/10 ≤ v
  · have hmin : min 5 (v + 1/10) = 5 := min_eq_left (by linarith)
    have hmax : clampScale (v + 1/10) = 5 := by
      unfold clampScale
      rw [hmin]
      exact max_eq_right (by norm_num)
    unfold scaleStep
    rw [hmax, if_pos hge]
    have h5 : (5 : ℚ) = ((500 : ℤ) : ℚ) / 100 := by norm_num
    rw [h5, pyRound2_cent]
  · have hmin : min 5 (v + 1/10) = v + 1/10 := min_eq_right (by linarith)
    have hmax : clampScale (v + 1/10) = v + 1/10 := by
      unfold clampScale
      rw [hmin]
      exact max_eq_right (by linarith)
    unfold scaleStep
    rw [hmax, if_neg hge]
    have hv : v + 1/10 = ((k + 10 : ℤ) : ℚ) / 100 := by
      rw [hk]
      push_cast
      ring
    rw [hv, pyRound2_cent]

theorem scaleStep_down_reaches (n : ℕ) :
    ∀ v : ℚ, isCent v → 1/10 ≤ v → v ≤ 5 → v ≤ 1/10 + n/10 →
    (scaleStep (-(1/10)))^[n] v = 1/10 := by
  induction n with
  | zero =>
    intro v _ h1 _ hb
    simp only [Function.iterate_zero_apply]
    exact le_antisymm (by simpa using hb) h1
  | succ k ih =>
    intro v hc h1 h2 hb
    rw [Function.iterate_succ_apply]
    by_cases hle : v ≤ 2/10
    · rw [scaleStep_down_eq v hc h1 h2, if_pos hle]
      apply ih (1/10) ⟨10, by norm_num⟩ le_rfl (by norm_num)
      have hpos : (0:ℚ) ≤ (k:ℚ)/10 := by positivity
      linarith
    · rw [scaleStep_down_eq v hc h1 h2, if_neg hle]
      obtain ⟨m, hm⟩ := hc
      apply ih (v - 1/10) ⟨m - 10, by rw [hm]; push_cast; ring⟩ (by linarith)
        (by linarith)
      push_cast at hb
      linarith

theorem scaleStep_up_reaches (n : ℕ) :
    ∀ v : ℚ, isCent v → 1/10 ≤ v → v ≤ 5 → 5 - n/10 ≤ v →
    (scaleStep (1/10))^[n] v = 5 := by
  induction n with
  | zero =>
    intro v _ _ h2 hb
    simp only [Function.iterate_zero_apply]
    exact le_antisymm h2 (by simpa using hb)
  | succ k ih =>
    intro v hc h1 h2 hb
    rw [Function.iterate_succ_apply]
    by_cases hge : 49/10 ≤ v
    · rw [scaleStep_up_eq v hc h1 h2, if_pos hge]
      apply ih 5 ⟨500, by norm_num⟩ (by norm_num) le_rfl
      have hpos : (0:ℚ) ≤ (k:ℚ)/10 := by positivity
      linarith
    · rw [scaleStep_up_eq v hc h1 h2, if_neg hge]
      obtain ⟨m, hm⟩ := hc
      apply ih (v + 1/10) ⟨m + 10, by rw [hm]; push_cast; ring⟩ (by linarith)
        (by linarith)
      push_cast at hb
      linarith

/- ── Claim C6: overlay scale is clamped and saturates ────────────────── -/

/-- Claim C6: every scale mutation through App._scale_overlay lands in
the interval from 0.1 to 5.0; starting from any in-range scale, repeated
application of the -0.1 step never goes below 0.1 and saturates at exactly
0.1, and repeated application of the +0.1 step never exceeds 5.0 and
saturates at exactly 5.0. -/
theorem C6_scale_clamped :
    (∀ (ovs : List PlacedOverlay) (idx : ℕ) (delta : ℚ) (ov : PlacedOverlay),
        (scaleOverlay ovs idx delta).get? idx = some ov →
        1/10 ≤ ov.scale ∧ ov.scale ≤ 5) ∧
    (∀ s : ℚ, 1/10 ≤ s → s ≤ 5 →
      (∀ n : ℕ, 1/10 ≤ (scaleStep (-(1/10)))^[n] s) ∧
      (scaleStep (-(1/10)))^[50] s = 1/10 ∧
      (∀ n : ℕ, (scaleStep (1/10))^[n] s ≤ 5) ∧
      (scaleStep (1/10))^[50] s = 5) := by
  constructor
  · intro ovs idx delta ov hov
    unfold scaleOverlay at hov
    by_cases hlen : idx < ovs.length
    · rw [if_pos hlen, modifyIdx_get?] at hov
      obtain ⟨a, _, hfa⟩ := Option.map_eq_some'.mp hov
      have hsc : ov.scale = scaleStep delta a.scale := by
        rw [← hfa]
      rw [hsc]
      exact scaleStep_mem delta a.scale
    · rw [if_neg hlen, List.get?_eq_none.mpr (Nat.le_of_not_lt hlen)] at hov
      exact absurd hov (by simp)
  · intro s h1 h2
    refine ⟨?_, ?_, ?_, ?_⟩
    · intro n
      cases n with
      | zero => simpa using h1
      | succ k =>
        rw [Function.iterate_succ_apply']
        exact (scaleStep_mem _ _).1
    · have h50 : (50 : ℕ) = 49 + 1 := rfl
      rw [h50, Function.iterate_succ_apply]
      apply scaleStep_down_reaches 49 (scaleStep (-(1/10)) s) (scaleStep_cent _ _)
        (scaleStep_mem _ _).1 (scaleStep_mem _ _).2
      have hb := (scaleStep_mem (-(1/10)) s).2
      push_cast
      linarith
    · intro n
      cases n with
      | zero => simpa using h2
      | succ k =>
        rw [Function.iterate_succ_apply']
        exact (scaleStep_mem _ _).2
    · have h50 : (50 : ℕ) = 49 + 1 := rfl
      rw [h50, Function.iterate_succ_apply]
      apply scaleStep_up_reaches 49 (scaleStep (1/10) s) (scaleStep_cent _ _)
        (scaleStep_mem _ _).1 (scaleStep_mem _ _).2
      have hb := (scaleStep_mem (1/10) s).1
      push_cast
      linarith
theorem C6_scale_clamped_witness :
    (1/10 ≤ scaleStep (1/10) (1/2) ∧ scaleStep (1/10) (1/2) ≤ 5) ∧
    1/10 ≤ (scaleStep (-(1/10)))^[7] (1/2) ∧
    (scaleStep (-(1/10)))^[50] (1/2) = 1/10 ∧
    (scaleStep (1/10))^[7] (1/2) ≤ 5 ∧
    (scaleStep (1/10))^[50] (1/2) = 5 := by
  have h2 := C6_scale_clamped.2 (1/2) (by norm_num) (by norm_num)
  exact ⟨C6_scale_clamped.1 c6Overlays 0 (1/10)
      ⟨0, 0, "s.png", 0, 0, 0, scaleStep (1/10) (1/2)⟩ rfl,
    h2.1 7, h2.2.1, h2.2.2.1 7, h2.2.2.2⟩

/- ── Claim C10: scale mutations quantize to two decimals ─────────────── -/

/-- Claim C10 (implicit): every scale mutation through App._scale_overlay
stores exactly the two-decimal banker rounding of the clamped value, so
the stored scale always lies on the hundredths grid. -/
theorem C10_scale_quantized :
    ∀ (ovs : List PlacedOverlay) (idx : ℕ) (delta : ℚ) (ov ov2 : PlacedOverlay),
      ovs.get? idx = some ov → (scaleOverlay ovs idx delta).get? idx = some ov2 →
      ov2.scale = pyRound2 (clampScale (ov.scale + delta)) ∧
      ∃ k : ℤ, ov2.scale = (k : ℚ) / 100 := by
  intro ovs idx delta ov ov2 hov hov2
  have hlen : idx < ovs.length := by
    by_contra hc
    rw [List.get?_eq_none.mpr (Nat.le_of_not_lt hc)] at hov
    exact absurd hov (by simp)
  unfold scaleOverlay at hov2
  rw [if_pos hlen, modifyIdx_get?, hov] at hov2
  have hform : ov2 = { ov with scale := scaleStep delta ov.scale } :=
    (Option.some.inj (by simpa using hov2)).symm
  subst hform
  exact ⟨rfl, scaleStep_cent delta ov.scale⟩
theorem C10_scale_quantized_witness :
    (⟨0, 0, "q.png", 0, 0, 0, scaleStep (1/10) (1/2)⟩ : PlacedOverlay).scale =
      pyRound2 (clampScale (1/2 + 1/10)) ∧
    ∃ k : ℤ, (⟨0, 0, "q.png", 0, 0, 0,
      scaleStep (1/10) (1/2)⟩ : PlacedOverlay).scale = (k : ℚ) / 100 :=
  C10_scale_quantized c10Overlays 0 (1/10) ⟨0, 0, "q.png", 0, 0, 0, 1/2⟩
    ⟨0, 0, "q.png", 0, 0, 0, scaleStep (1/10) (1/2)⟩ rfl rfl

/- ── Claim C4: save then load reproduces the map ─────────────────────── -/

theorem parseTile_tileToEntry (t : PlacedTile) :
    parseTile (tileToEntry t) = Except.ok t := rfl

theorem parseOverlay_overlayToEntry (o : PlacedOverlay) :
    parseOverlay (overlayToEntry o) = Except.ok o := rfl

theorem mapM_parseTile_map (l : List PlacedTile) :
    (l.map tileToEntry).mapM parseTile = Except.ok l := by
  induction l with
  | nil => rfl
  | cons a t ih =>
    simp only [List.map_cons, List.mapM_cons, parseTile_tileToEntry, ih]
    rfl

theorem mapM_parseOverlay_map (l : List PlacedOverlay) :
    (l.map overlayToEntry).mapM parseOverlay = Except.ok l := by
  induction l with
  | nil => rfl
  | cons a t ih =>
    simp only [List.map_cons, List.mapM_cons, parseOverlay_overlayToEntry, ih]
    rfl

theorem dictInsert_append_fresh {κ ν : Type} [DecidableEq κ]
    (l : List (κ × ν)) (k : κ) (v : ν) (h : k ∉ l.map Prod.fst) :
    dictInsert l k v = l ++ [(k, v)] := by
  induction l with
  | nil => rfl
  | cons a t ih =>
    obtain ⟨k1, v1⟩ := a
    simp only [List.map_cons, List.mem_cons] at h
    push_neg at h
    obtain ⟨h1, h2⟩ := h
    have hne : ¬ (k1 = k) := fun he => h1 he.symm
    simp only [dictInsert, if_neg hne, List.cons_append, List.cons.injEq, true_and]
    exact ih h2

theorem buildTileDict_foldl (l : List ((ℤ × ℤ) × PlacedTile)) :
    ∀ acc : List ((ℤ × ℤ) × PlacedTile),
      (∀ kv ∈ l, kv.1 = tileKey kv.2) →
      (l.map Prod.fst).Nodup →
      (∀ kv ∈ l, kv.1 ∉ acc.map Prod.fst) →
      (l.map Prod.snd).foldl (fun d t => dictInsert d (tileKey t) t) acc =
        acc ++ l := by
  induction l with
  | nil =>
    intro acc _ _ _
    simp
  | cons a t ih =>
    intro acc hcons hnd hdisj
    obtain ⟨k, v⟩ := a
    rw [List.map_cons, List.nodup_cons] at hnd
    obtain ⟨hknot, hndt⟩ := hnd
    have hk : k = tileKey v := hcons (k, v) (by simp)
    rw [List.map_cons, List.foldl_cons]
    have hnotin : tileKey v ∉ acc.map Prod.fst := by
      rw [← hk]
      exact hdisj (k, v) (by simp)
    rw [dictInsert_append_fresh acc (tileKey v) v hnotin]
    subst hk
    have hdisj2 : ∀ kv ∈ t, kv.1 ∉ (acc ++ [(tileKey v, v)]).map Prod.fst := by
      intro kv hkv
      rw [List.map_append]
      intro hcontra
      rcases List.mem_append.mp hcontra with hc | hc
      · exact hdisj kv (by simp [hkv]) hc
      · simp only [List.map_cons, List.map_nil, List.mem_singleton] at hc
        apply hknot
        rw [← hc]
        exact List.mem_map.mpr ⟨kv, hkv, rfl⟩
    have ht := ih (acc ++ [(tileKey v, v)])
      (fun kv hkv => hcons kv (by simp [hkv])) hndt hdisj2
    rw [ht, List.append_assoc]
    rfl

theorem load_ok (m0 : HexMap) (p : String) (doc : MapDoc) (ts : List PlacedTile)
    (os : List PlacedOverlay) (hts : doc.tiles.mapM parseTile = Except.ok ts)
    (hos : doc.overlays.mapM parseOverlay = Except.ok os) :
    HexMap.load m0 p (some doc) =
      Except.ok { tiles := buildTileDict ts, overlays := os,
                  filepath := some p } := by
  unfold HexMap.load
  dsimp only
  rw [hts, hos]

/-- Claim C4: serializing then deserializing a well-formed map (dict keys
unique and consistent with the stored tiles) reproduces every field of
every placed tile and every placed overlay exactly, preserving overlay
order; and optional fields absent from a read document default to an empty
category, rotation 0, offsets 0, and scale one half. -/
theorem C4_save_load_roundtrip :
    (∀ (m m0 : HexMap) (p : String),
        (∀ kv ∈ m.tiles, kv.1 = tileKey kv.2) →
        (m.tiles.map Prod.fst).Nodup →
        HexMap.load m0 p (some (HexMap.save m)) =
          Except.ok { tiles := m.tiles, overlays := m.overlays,
                      filepath := some p }) ∧
    (∀ (c r : ℤ) (pa : String),
        parseTile ⟨some c, some r, some pa, none, none⟩ =
          Except.ok ⟨c, r, pa, "", 0⟩ ∧
        parseOverlay ⟨some c, some r, some pa, none, none, none, none⟩ =
          Except.ok ⟨c, r, pa, 0, 0, 0, 1/2⟩) := by
  constructor
  · intro m m0 p hcons hnd
    have hmaps : m.tiles.map (fun kv => tileToEntry kv.2) =
        (m.tiles.map Prod.snd).map tileToEntry := by
      rw [List.map_map]
      rfl
    have hts : (HexMap.save m).tiles.mapM parseTile =
        Except.ok (m.tiles.map Prod.snd) := by
      show (m.tiles.map (fun kv => tileToEntry kv.2)).mapM parseTile = _
      rw [hmaps, mapM_parseTile_map]
    have hos : (HexMap.save m).overlays.mapM parseOverlay =
        Except.ok m.overlays := by
      show (m.overlays.map overlayToEntry).mapM parseOverlay = _
      exact mapM_parseOverlay_map m.overlays
    have hb : buildTileDict (m.tiles.map Prod.snd) = m.tiles := by
      have hfold := buildTileDict_foldl m.tiles [] hcons hnd (by simp)
      unfold buildTileDict
      simpa using hfold
    rw [load_ok m0 p (HexMap.save m) _ _ hts hos, hb]
  · intro c r pa
    exact ⟨rfl, rfl⟩
theorem C4_save_load_roundtrip_witness :
    HexMap.load ⟨[], [], none⟩ "map.hexmap" (some (HexMap.save c4Map)) =
      Except.ok { tiles := c4Map.tiles, overlays := c4Map.overlays,
                  filepath := some "map.hexmap" } ∧
    parseTile ⟨some 2, some (-1), some "forest.png", none, none⟩ =
      Except.ok ⟨2, -1, "forest.png", "", 0⟩ ∧
    parseOverlay ⟨some 0, some 0, some "tree.png", none, none, none, none⟩ =
      Except.ok ⟨0, 0, "tree.png", 0, 0, 0, 1/2⟩ :=
  ⟨C4_save_load_roundtrip.1 c4Map ⟨[], [], none⟩ "map.hexmap"
      (by decide) (by decide),
    (C4_save_load_roundtrip.2 2 (-1) "forest.png").1,
    (C4_save_load_roundtrip.2 0 0 "tree.png").2⟩

/- ── Claim C8: zoom clamps the radius and fixes the cursor point ─────── -/

theorem zoom_fix (h c e u n : ℝ) (hne : h ≠ 0) (he : c + h * u = e) :
    e - n / h * (e - c) + n * u = e := by
  have hd : e - c = h * u := by linarith
  rw [hd]
  field_simp
  ring

/-- Claim C8: the zoom keeps the hex radius within 20 and 160 (the stepped
radius is clamped at both bounds), re-centers the camera by the
zoom-to-cursor transform newOffset = pointer - scaleFactor * (pointer -
oldOffset), and a map point lying exactly under the pointer stays exactly
fixed, in particular within one pixel. -/
theorem C8_zoom_to_cursor (st : Camera) (direction : ℤ) (ex ey ux uy : ℝ)
    (hlo : 20 ≤ st.hex_size) (hhi : st.hex_size ≤ 160)
    (hx : st.cam_x + st.hex_size * ux = ex)
    (hy : st.cam_y + st.hex_size * uy = ey) :
    (20 ≤ (zoomStep st direction ex ey).hex_size ∧
      (zoomStep st direction ex ey).hex_size ≤ 160) ∧
    (zoomStep st direction ex ey).cam_x =
      ex - ((zoomStep st direction ex ey).hex_size / st.hex_size) *
        (ex - st.cam_x) ∧
    (zoomStep st direction ex ey).cam_y =
      ey - ((zoomStep st direction ex ey).hex_size / st.hex_size) *
        (ey - st.cam_y) ∧
    (zoomStep st direction ex ey).cam_x +
      (zoomStep st direction ex ey).hex_size * ux = ex ∧
    (zoomStep st direction ex ey).cam_y +
      (zoomStep st direction ex ey).hex_size * uy = ey ∧
    |(zoomStep st direction ex ey).cam_x +
      (zoomStep st direction ex ey).hex_size * ux - ex| < 1 := by
  have hpos : (0 : ℝ) < st.hex_size := lt_of_lt_of_le (by norm_num) hlo
  have hne : st.hex_size ≠ 0 := ne_of_gt hpos
  have hfx : (zoomStep st direction ex ey).cam_x +
      (zoomStep st direction ex ey).hex_size * ux = ex :=
    zoom_fix st.hex_size st.cam_x ex ux
      ((zoomStep st direction ex ey).hex_size) hne hx
  have hfy : (zoomStep st direction ex ey).cam_y +
      (zoomStep st direction ex ey).hex_size * uy = ey :=
    zoom_fix st.hex_size st.cam_y ey uy
      ((zoomStep st direction ex ey).hex_size) hne hy
  refine ⟨⟨le_max_left _ _,
      max_le (by norm_num [MIN_HEX_SIZE]) (min_le_left _ _)⟩,
    rfl, rfl, hfx, hfy, ?_⟩
  have hzero : (zoomStep st direction ex ey).cam_x +
      (zoomStep st direction ex ey).hex_size * ux - ex = 0 := by
    rw [hfx]
    ring
  rw [hzero]
  norm_num

theorem C8_zoom_to_cursor_witness :
    (20 ≤ (zoomStep ⟨550, 380, 60⟩ 1 400 300).hex_size ∧
      (zoomStep ⟨550, 380, 60⟩ 1 400 300).hex_size ≤ 160) ∧
    (zoomStep ⟨550, 380, 60⟩ 1 400 300).cam_x =
      400 - ((zoomStep ⟨550, 380, 60⟩ 1 400 300).hex_size / 60) * (400 - 550) ∧
    (zoomStep ⟨550, 380, 60⟩ 1 400 300).cam_y =
      300 - ((zoomStep ⟨550, 380, 60⟩ 1 400 300).hex_size / 60) * (300 - 380) ∧
    (zoomStep ⟨550, 380, 60⟩ 1 400 300).cam_x +
      (zoomStep ⟨550, 380, 60⟩ 1 400 300).hex_size * (-(5/2)) = 400 ∧
    (zoomStep ⟨550, 380, 60⟩ 1 400 300).cam_y +
      (zoomStep ⟨550, 380, 60⟩ 1 400 300).hex_size * (-(4/3)) = 300 ∧
    |(zoomStep ⟨550, 380, 60⟩ 1 400 300).cam_x +
      (zoomStep ⟨550, 380, 60⟩ 1 400 300).hex_size * (-(5/2)) - 400| < 1 :=
  C8_zoom_to_cursor ⟨550, 380, 60⟩ 1 400 300 (-(5/2)) (-(4/3))
    (by norm_num) (by norm_num) (by norm_num) (by norm_num)

/- ── Claim C3: pixel round-trip recovers the hex coordinate ──────────── -/

theorem pyRound_intCast (n : ℤ) : pyRound (n : ℝ) = n := by
  unfold pyRound
  rw [Int.fract_intCast, if_neg (by norm_num)]
  exact round_intCast n
theorem p2hDist_nonneg (px py size : ℝ) (c0 : ℤ) (d : ℤ × ℤ) :
    0 ≤ p2hDist px py size c0 d := by
  unfold p2hDist
  positivity

theorem p2hStep_none (px py size : ℝ) (c0 : ℤ) (best : ℤ × ℤ) (d : ℤ × ℤ) :
    p2hStep px py size c0 (best, none) d =
      (p2hCand py size c0 d, some (p2hDist px py size c0 d)) := rfl

theorem p2hStep_some (px py size : ℝ) (c0 : ℤ) (best : ℤ × ℤ) (b : ℝ)
    (d : ℤ × ℤ) :
    p2hStep px py size c0 (best, some b) d =
      if p2hDist px py size c0 d < b then
        (p2hCand py size c0 d, some (p2hDist px py size c0 d))
      else (best, some b) := rfl

theorem p2hStep_good (px py size : ℝ) (c0 : ℤ) (acc : (ℤ × ℤ) × Option ℝ)
    (d : ℤ × ℤ) (hd : 0 < p2hDist px py size c0 d) (hacc : goodAcc acc) :
    goodAcc (p2hStep px py size c0 acc d) := by
  obtain ⟨best, bd⟩ := acc
  cases bd with
  | none =>
    rw [p2hStep_none]
    exact Or.inr ⟨_, rfl, hd⟩
  | some b =>
    rcases hacc with h | ⟨b2, hb2, hbpos⟩
    · simp at h
    · have hb : b = b2 := by simpa using hb2
      subst hb
      rw [p2hStep_some]
      by_cases hlt : p2hDist px py size c0 d < b
      · rw [if_pos hlt]
        exact Or.inr ⟨_, rfl, hd⟩
      · rw [if_neg hlt]
        exact Or.inr ⟨b, rfl, hbpos⟩

theorem p2hStep_zero (px py size : ℝ) (c0 : ℤ) (acc : (ℤ × ℤ) × Option ℝ)
    (d : ℤ × ℤ) (hd : p2hDist px py size c0 d = 0) (hacc : goodAcc acc) :
    p2hStep px py size c0 acc d = (p2hCand py size c0 d, some 0) := by
  obtain ⟨best, bd⟩ := acc
  cases bd with
  | none => rw [p2hStep_none, hd]
  | some b =>
    rcases hacc with h | ⟨b2, hb2, hbpos⟩
    · simp at h
    · have hb : b = b2 := by simpa using hb2
      subst hb
      rw [p2hStep_some, if_pos (by rw [hd]; exact hbpos), hd]

theorem p2hStep_keep (px py size : ℝ) (c0 : ℤ) (t : ℤ × ℤ) (d : ℤ × ℤ)
    (hd : 0 ≤ p2hDist px py size c0 d) :
    p2hStep px py size c0 (t, some 0) d = (t, some 0) := by
  rw [p2hStep_some, if_neg (not_lt.mpr hd)]

theorem foldl_p2hStep_good (px py size : ℝ) (c0 : ℤ) (l : List (ℤ × ℤ)) :
    ∀ acc, (∀ d ∈ l, 0 < p2hDist px py size c0 d) → goodAcc acc →
      goodAcc (l.foldl (p2hStep px py size c0) acc) := by
  induction l with
  | nil =>
    intro acc _ h
    exact h
  | cons a t ih =>
    intro acc hall hacc
    rw [List.foldl_cons]
    exact ih _ (fun d hd => hall d (by simp [hd]))
      (p2hStep_good px py size c0 acc a (hall a (by simp)) hacc)

theorem foldl_p2hStep_keep (px py size : ℝ) (c0 : ℤ) (l : List (ℤ × ℤ)) :
    ∀ t : ℤ × ℤ, (∀ d ∈ l, 0 ≤ p2hDist px py size c0 d) →
      l.foldl (p2hStep px py size c0) (t, some 0) = (t, some 0) := by
  induction l with
  | nil =>
    intro t _
    rfl
  | cons a tl ih =>
    intro t hall
    rw [List.foldl_cons, p2hStep_keep px py size c0 t a (hall a (by simp))]
    exact ih t (fun d hd => hall d (by simp [hd]))

theorem p2hDist_pos_of_ne (col row : ℤ) (size : ℝ) (hs : 0 < size) (c0 : ℤ)
    (d : ℤ × ℤ)
    (hne : p2hCand (hex_to_pixel col row size).2 size c0 d ≠ (col, row)) :
    0 < p2hDist (hex_to_pixel col row size).1 (hex_to_pixel col row size).2
      size c0 d := by
  have hsqrt : (0:ℝ) < Real.sqrt 3 := Real.sqrt_pos.mpr (by norm_num)
  unfold p2hDist
  set cand := p2hCand (hex_to_pixel col row size).2 size c0 d with hcand
  show 0 < ((hex_to_pixel col row size).1 -
      (hex_to_pixel cand.1 cand.2 size).1) ^ 2 +
    ((hex_to_pixel col row size).2 - (hex_to_pixel cand.1 cand.2 size).2) ^ 2
  by_cases hc : cand.1 = col
  · have hr : cand.2 ≠ row := by
      intro hr
      exact hne (Prod.ext_iff.mpr ⟨hc, hr⟩)
    have hB : (hex_to_pixel col row size).2 - (hex_to_pixel cand.1 cand.2 size).2 =
        size * Real.sqrt 3 * ((row : ℝ) - (cand.2 : ℝ)) := by
      show size * Real.sqrt 3 * ((row : ℝ) + 0.5 * ((col % 2 : ℤ) : ℝ)) -
        size * Real.sqrt 3 * ((cand.2 : ℝ) + 0.5 * ((cand.1 % 2 : ℤ) : ℝ)) = _
      rw [hc]
      ring
    have hBne : (hex_to_pixel col row size).2 -
        (hex_to_pixel cand.1 cand.2 size).2 ≠ 0 := by
      rw [hB]
      apply mul_ne_zero (mul_ne_zero (ne_of_gt hs) (ne_of_gt hsqrt))
      rw [sub_ne_zero]
      exact_mod_cast fun hh => hr (by exact_mod_cast hh.symm)
    have hB2 : 0 < ((hex_to_pixel col row size).2 -
        (hex_to_pixel cand.1 cand.2 size).2) ^ 2 :=
      lt_of_le_of_ne (sq_nonneg _) (Ne.symm (pow_ne_zero 2 hBne))
    exact add_pos_of_nonneg_of_pos (sq_nonneg _) hB2
  · have hA : (hex_to_pixel col row size).1 - (hex_to_pixel cand.1 cand.2 size).1 =
        size * 1.5 * ((col : ℝ) - (cand.1 : ℝ)) := by
      show size * 1.5 * (col : ℝ) - size * 1.5 * (cand.1 : ℝ) = _
      ring
    have hAne : (hex_to_pixel col row size).1 -
        (hex_to_pixel cand.1 cand.2 size).1 ≠ 0 := by
      rw [hA]
      apply mul_ne_zero (by positivity)
      rw [sub_ne_zero]
      exact_mod_cast fun hh => hc (by exact_mod_cast hh.symm)
    have hA2 : 0 < ((hex_to_pixel col row size).1 -
        (hex_to_pixel cand.1 cand.2 size).1) ^ 2 :=
      lt_of_le_of_ne (sq_nonneg _) (Ne.symm (pow_ne_zero 2 hAne))
    exact add_pos_of_pos_of_nonneg hA2 (sq_nonneg _)

/-- Claim C3: for every integer hex coordinate and every size in the valid
range from 20 to 160, converting to pixel space with hex_to_pixel and back
with pixel_to_hex recovers exactly the original (col, row). -/
theorem C3_hex_pixel_roundtrip (col row : ℤ) (size : ℝ)
    (hlo : 20 ≤ size) (hhi : size ≤ 160) :
    pixel_to_hex (hex_to_pixel col row size).1 (hex_to_pixel col row size).2
      size = (col, row) := by
  have hs : (0:ℝ) < size := lt_of_lt_of_le (by norm_num) hlo
  have hsqrt : (0:ℝ) < Real.sqrt 3 := Real.sqrt_pos.mpr (by norm_num)
  have hs15 : size * 1.5 ≠ 0 := by positivity
  have hsr3 : size * Real.sqrt 3 ≠ 0 := by positivity
  set px := (hex_to_pixel col row size).1 with hpx
  set py := (hex_to_pixel col row size).2 with hpy
  have hcol : pyRound (px / (size * 1.5)) = col := by
    have hprod : px = (size * 1.5) * (col : ℝ) := rfl
    rw [hprod, mul_div_cancel_left₀ _ hs15, pyRound_intCast]
  have harg : py / (size * Real.sqrt 3) - 0.5 * ((col % 2 : ℤ) : ℝ) = (row : ℝ) := by
    have hprod : py = (size * Real.sqrt 3) *
        ((row : ℝ) + 0.5 * ((col % 2 : ℤ) : ℝ)) := rfl
    rw [hprod, mul_div_cancel_left₀ _ hsr3]
    ring
  have hcandd : ∀ dr : ℤ, p2hCand py size col (0, dr) = (col, row + dr) := by
    intro dr
    show (col + 0, pyRound (py / (size * Real.sqrt 3) -
        0.5 * (((col + 0) % 2 : ℤ) : ℝ)) + dr) = (col, row + dr)
    rw [add_zero, harg, pyRound_intCast]
  have hcand : p2hCand py size col (0, 0) = (col, row) := by
    rw [hcandd 0, add_zero]
  have hdist0 : p2hDist px py size col (0, 0) = 0 := by
    unfold p2hDist
    rw [hcand]
    show (px - px) ^ 2 + (py - py) ^ 2 = 0
    ring
  have hL1 : ∀ d ∈ ([(-1, -2), (-1, -1), (-1, 0), (-1, 1), (-1, 2),
      (0, -2), (0, -1)] : List (ℤ × ℤ)), 0 < p2hDist px py size col d := by
    intro d hd
    apply p2hDist_pos_of_ne col row size hs col d
    fin_cases hd
    · intro hEq
      have h1 := congrArg Prod.fst hEq
      simp [p2hCand] at h1
    · intro hEq
      have h1 := congrArg Prod.fst hEq
      simp [p2hCand] at h1
    · intro hEq
      have h1 := congrArg Prod.fst hEq
      simp [p2hCand] at h1
    · intro hEq
      have h1 := congrArg Prod.fst hEq
      simp [p2hCand] at h1
    · intro hEq
      have h1 := congrArg Prod.fst hEq
      simp [p2hCand] at h1
    · rw [hcandd (-2)]
      intro hEq
      have h2 := congrArg Prod.snd hEq
      simp at h2
    · rw [hcandd (-1)]
      intro hEq
      have h2 := congrArg Prod.snd hEq
      simp at h2
  have hL2 : ∀ d ∈ ([(0, 1), (0, 2), (1, -2), (1, -1), (1, 0), (1, 1),
      (1, 2)] : List (ℤ × ℤ)), 0 ≤ p2hDist px py size col d :=
    fun d _ => p2hDist_nonneg px py size col d
  have hsplit : deltaPairs =
      ([(-1, -2), (-1, -1), (-1, 0), (-1, 1), (-1, 2), (0, -2), (0, -1)] :
        List (ℤ × ℤ)) ++ (0, 0) ::
      ([(0, 1), (0, 2), (1, -2), (1, -1), (1, 0), (1, 1), (1, 2)] :
        List (ℤ × ℤ)) := rfl
  show (deltaPairs.foldl (p2hStep px py size (pyRound (px / (size * 1.5))))
      ((pyRound (px / (size * 1.5)), 0), none)).1 = (col, row)
  rw [hcol, hsplit, List.foldl_append, List.foldl_cons]
  have hgood : goodAcc
      (([(-1, -2), (-1, -1), (-1, 0), (-1, 1), (-1, 2), (0, -2), (0, -1)] :
        List (ℤ × ℤ)).foldl (p2hStep px py size col) ((col, 0), none)) :=
    foldl_p2hStep_good px py size col _ _ hL1 (Or.inl rfl)
  have hstep0 := p2hStep_zero px py size col
    (([(-1, -2), (-1, -1), (-1, 0), (-1, 1), (-1, 2), (0, -2), (0, -1)] :
      List (ℤ × ℤ)).foldl (p2hStep px py size col) ((col, 0), none))
    (0, 0) hdist0 hgood
  rw [hcand] at hstep0
  rw [hstep0, foldl_p2hStep_keep px py size col _ (col, row) hL2]

theorem C3_hex_pixel_roundtrip_witness :
    pixel_to_hex (hex_to_pixel 2 (-1) 60).1 (hex_to_pixel 2 (-1) 60).2 60 =
      (2, -1) :=
  C3_hex_pixel_roundtrip 2 (-1) 60 (by norm_num) (by norm_num)
